import Mathlib

/-!
Verification of the AVL-map core of the bloodhound repository.

Two layers are modelled, following the two source files:

* the node layer (`src/node.c`): `TreeNode` carries left/right children, a
  cached subtree height (`ptrdiff_t height`, 1 for a fresh node, 0 for an
  absent subtree) and a key/value pair.  The C code links nodes with parent
  pointers and mutates in place; the shallow embedding renders each operation
  as a function on inductive trees, where the C pattern "walk from a node up
  to the root via `parent` pointers, fixing each ancestor" becomes the
  reconstruction of each ancestor on the way out of the structural recursion.
  The comparator capability is instantiated with the total order on `Int`
  (`comparator a b` negative / zero / positive iff `a < b` / `a = b` /
  `a > b`).

* the map layer (`AvlMap`, the unnamed source file): `AvlNode` carries
  left/right children, a key/value pair and a `balance_factor` byte that
  `calloc` zeroes and nothing ever updates.  Map operations additionally
  return the list of deleter invocations `(key, value)` they perform, so
  that claims about "the deleter is invoked exactly once per pair" are
  statable; `AvlMap_insert` performs none (the C function contains no call
  to `self->deleter`), `AvlMap_clear` performs one per freed node.
-/

namespace Bloodhound

/-- Error codes of the node layer (`TreeErrorE` in `node.c`). -/
inductive TreeErrorE where
  | success
  | duplicateKey
  | noSuchKey
  deriving DecidableEq, Repr

/-- A `TreeNode` of `node.c`: left child, key, value, cached height, right
child.  `nil` is the `NULL` pointer; the `parent` field is represented by the
position of the node inside the whole tree. -/
inductive TreeNode where
  | nil
  | node (left : TreeNode) (key : Int) (value : Int) (height : Nat)
      (right : TreeNode)
  deriving DecidableEq, Repr

namespace TreeNode

/-- Cached height: `get_height` in `node.c`, 0 for `NULL`. -/
def get_height : TreeNode → Nat
  | nil => 0
  | node _ _ _ h _ => h

/-- The real height of a tree, independent of the caches. -/
def heightOf : TreeNode → Nat
  | nil => 0
  | node l _ _ _ r => max (heightOf l) (heightOf r) + 1

/-- The height `update_height` in `node.c` stores into a node whose children
are `l` and `r`: the larger cached child height plus one. -/
def updated_height (l r : TreeNode) : Nat :=
  if get_height l > get_height r then get_height l + 1
  else get_height r + 1

/-- The balance factor `get_balance_factor` of `node.c`:
cached height of the left child minus cached height of the right child. -/
def balance_factor : TreeNode → Int
  | nil => 0
  | node l _ _ _ r => (get_height l : Int) - (get_height r : Int)

/-- The rotation `rotate_right` of `node.c`.  `self->left->right` becomes the
left child of `self`, `self` becomes the right child of its former left
child, and `update_height(self)` refreshes the demoted node's height and then
its new parent's (further ancestors are refreshed by the caller's
reconstruction).  Rotating without a left child is an assertion failure in C;
the embedding returns the tree unchanged in that unreachable case. -/
def rotate_right : TreeNode → TreeNode
  | node (node ll lk lv _ lr) k v _ r =>
      let demoted := node lr k v (updated_height lr r) r
      node ll lk lv (updated_height ll demoted) demoted
  | t => t

/-- The rotation `rotate_left` of `node.c`, mirror of `rotate_right`. -/
def rotate_left : TreeNode → TreeNode
  | node l k v _ (node rl rk rv _ rr) =>
      let demoted := node l k v (updated_height l rl) rl
      node demoted rk rv (updated_height demoted rr) rr
  | t => t

/-- One step of `rebalance` in `node.c` at a single node: if the balance
factor leaves `[-1, 1]`, rotate (with the double-rotation pre-step when the
heavy child leans the other way).  The upward recursion of the C `rebalance`
to `self->parent` is realized by the caller applying this at each ancestor. -/
def rebalance_node : TreeNode → TreeNode
  | nil => nil
  | node l k v h r =>
      if (get_height l : Int) - (get_height r : Int) > 1 then
        rotate_right
          (node (if balance_factor l < 0 then rotate_left l else l) k v h r)
      else if (get_height l : Int) - (get_height r : Int) < -1 then
        rotate_left
          (node l k v h (if balance_factor r > 0 then rotate_right r else r))
      else node l k v h r

/-- `TreeNode_insert` of `node.c`: the structural descent of `do_insert`
(`comparator(self->key, to_insert->key)` positive descends or attaches left,
negative right, zero fails with `TREE_DUPLICATE_KEY` leaving everything
untouched), followed on success by `update_height` and `rebalance` from the
new node to the root — modelled by recomputing the height and rebalancing at
each ancestor on the way out of the recursion.  The result pairs the error
code with the tree after the call (the C mutates in place and returns the
code); a fresh node is attached with height 1, as set by `TreeNode_init`. -/
def TreeNode_insert : TreeNode → Int → Int → TreeErrorE × TreeNode
  | nil, nk, nv => (.success, node nil nk nv 1 nil)
  | node l k v h r, nk, nv =>
      if k = nk then (.duplicateKey, node l k v h r)
      else if nk < k then
        match TreeNode_insert l nk nv with
        | (.success, lA) =>
            (.success, rebalance_node (node lA k v (updated_height lA r) r))
        | (e, lA) => (e, node lA k v h r)
      else
        match TreeNode_insert r nk nv with
        | (.success, rA) =>
            (.success, rebalance_node (node l k v (updated_height l rA) rA))
        | (e, rA) => (e, node l k v h rA)

/-- In-order key/value pairs of a tree. -/
def inorderPairs : TreeNode → List (Int × Int)
  | nil => []
  | node l k v _ r => inorderPairs l ++ (k, v) :: inorderPairs r

/-- In-order keys of a tree. -/
def inorderKeys (t : TreeNode) : List Int :=
  (inorderPairs t).map Prod.fst

/-- The AVL invariant of the spec: at every node the cached height equals
`1 + max(height(left), height(right))` and the children's heights differ by
at most one. -/
def Avl : TreeNode → Prop
  | nil => True
  | node l _ _ h r =>
      Avl l ∧ Avl r ∧ h = max (heightOf l) (heightOf r) + 1 ∧
        heightOf l ≤ heightOf r + 1 ∧ heightOf r ≤ heightOf l + 1

instance Avl.dec : (t : TreeNode) → Decidable (Avl t)
  | nil => .isTrue trivial
  | node l _ _ h r =>
      have := Avl.dec l
      have := Avl.dec r
      decidable_of_iff
        (Avl l ∧ Avl r ∧ h = max (heightOf l) (heightOf r) + 1 ∧
          heightOf l ≤ heightOf r + 1 ∧ heightOf r ≤ heightOf l + 1)
        Iff.rfl

/-- The order invariant of the spec: the in-order key sequence is strictly
ascending under the comparator. -/
def Sorted (t : TreeNode) : Prop :=
  (inorderKeys t).Pairwise (· < ·)

instance Sorted.dec (t : TreeNode) : Decidable (Sorted t) := by
  unfold Sorted; infer_instance

/-- `TreeNode_lower_bound` of `node.c`.  `comparator(self->key, key)`
negative (node key below the query) descends right, failing with
`TREE_NO_SUCH_KEY` when there is no right child; positive with a left child
present tries the left subtree and falls back to the current node when that
fails; otherwise (equal key, or no left child) the current node is the
bound.  `none` renders `TREE_NO_SUCH_KEY`; `some (k, v)` renders
`TREE_SUCCESS` with `*bound` set to the node holding `(k, v)`. -/
def TreeNode_lower_bound : TreeNode → Int → Option (Int × Int)
  | nil, _ => none
  | node l k v _ r, key =>
      if k < key then TreeNode_lower_bound r key
      else if key < k then
        match l with
        | nil => some (k, v)
        | node .. =>
            match TreeNode_lower_bound l key with
            | some b => some b
            | none => some (k, v)
      else some (k, v)

/-- State-threaded rendering of `TreeNode_lower_bound`: alongside the search
result it returns the tree as it stands after the call, rebuilding every node
visited from the results of the recursive calls, so that the frame property
of the search is statable. -/
def TreeNode_lower_bound_st : TreeNode → Int →
    Option (Int × Int) × TreeNode
  | nil, _ => (none, nil)
  | node l k v h r, key =>
      if k < key then
        let (b, rA) := TreeNode_lower_bound_st r key
        (b, node l k v h rA)
      else if key < k then
        match l with
        | nil => (some (k, v), node l k v h r)
        | node .. =>
            match TreeNode_lower_bound_st l key with
            | (some b, lA) => (some b, node lA k v h r)
            | (none, lA) => (some (k, v), node lA k v h r)
      else (some (k, v), node l k v h r)

/-- A direction of descent, used to address a node inside a tree where the C
code would hold a pointer to it. -/
inductive Dir where
  | l
  | r
  deriving DecidableEq, Repr

/-- The subtree rooted at the node addressed by the path, when the path is
valid. -/
def subtreeAt : TreeNode → List Dir → Option TreeNode
  | t, [] => some t
  | nil, _ :: _ => none
  | node l _ _ _ _, .l :: p => subtreeAt l p
  | node _ _ _ _ r, .r :: p => subtreeAt r p

/-- Replaces the subtree addressed by the path, leaving every field of every
ancestor — including its cached height — exactly as it was (`TreeNode_erase`
never calls `update_height`). -/
def replaceAt : TreeNode → List Dir → TreeNode → Option TreeNode
  | _, [], s => some s
  | nil, _ :: _, _ => none
  | node l k v h r, .l :: p, s => (replaceAt l p s).map (node · k v h r)
  | node l k v h r, .r :: p, s => (replaceAt r p s).map (node l k v h ·)

/-- The effect of `replace_successor` in `node.c` on the right subtree of the
node being erased: `inorder_successor` walks to the leftmost node and
`remove_parent` nulls its parent's child link, so the leftmost node leaves
the tree together with its entire right subtree, and nothing else changes. -/
def remove_leftmost : TreeNode → TreeNode
  | nil => nil
  | node nil _ _ _ _ => nil
  | node l k v h r => node (remove_leftmost l) k v h r

/-- `TreeNode_erase` of `node.c`, applied to the node addressed by `p` inside
the tree `t` (the C function receives a pointer to that node); the result is
what remains reachable from the original root after the call.  No children:
`remove_parent` empties the parent's child slot (at the root there is no
parent and nothing changes).  One child: `replace_left`/`replace_right` put
the child into the parent's slot and null the node's own links (at the root
the child merely becomes unreachable).  Two children: `replace_successor`
detaches the in-order successor of the node (together with the successor's
right subtree) and leaves the node itself in place.  No height update or
rebalancing occurs anywhere. -/
def TreeNode_erase (t : TreeNode) (p : List Dir) : Option TreeNode :=
  (subtreeAt t p).bind fun s =>
    match s with
    | nil => none
    | node nil _ _ _ nil =>
        if p.isEmpty then some t else replaceAt t p nil
    | node l k v h nil =>
        if p.isEmpty then some (node nil k v h nil) else replaceAt t p l
    | node nil k v h r =>
        if p.isEmpty then some (node nil k v h nil) else replaceAt t p r
    | node l k v h r => replaceAt t p (node l k v h (remove_leftmost r))

end TreeNode

/-- An `AvlNode` of the map layer: left and right children, key, value, and
the `balance_factor` byte that `alloc_node`'s `calloc` zeroes and that no
code path ever updates or reads. -/
inductive AvlNode where
  | nil
  | node (left : AvlNode) (right : AvlNode) (key : Int) (value : Int)
      (balance : Int)
  deriving DecidableEq, Repr

namespace AvlNode

/-- Number of nodes of a map-layer tree. -/
def sizeA : AvlNode → Nat
  | nil => 0
  | node l r _ _ _ => sizeA l + sizeA r + 1

/-- Height of a map-layer tree (no node caches it at this layer). -/
def heightA : AvlNode → Nat
  | nil => 0
  | node l r _ _ _ => max (heightA l) (heightA r) + 1

/-- In-order key/value pairs of a map-layer tree. -/
def inorderPairsA : AvlNode → List (Int × Int)
  | nil => []
  | node l r k v _ => inorderPairsA l ++ (k, v) :: inorderPairsA r

/-- In-order keys of a map-layer tree. -/
def inorderKeysA (t : AvlNode) : List Int :=
  (inorderPairsA t).map Prod.fst

/-- The order invariant at the map layer: strictly ascending in-order keys. -/
def SortedA (t : AvlNode) : Prop :=
  (inorderKeysA t).Pairwise (· < ·)

instance SortedA.dec (t : AvlNode) : Decidable (SortedA t) := by
  unfold SortedA; infer_instance

/-- Total number of nodes sitting in left subtrees, the decreasing measure of
the Morris traversal. -/
def left_weight : AvlNode → Nat
  | nil => 0
  | node l r _ _ _ => left_weight l + left_weight r + sizeA l

/-- The Morris in-order destruction loop of `AvlMap_clear`, rendered on pure
trees; the returned list holds, in order, the `(key, value)` pairs passed to
the deleter (each immediately followed in C by `free` of the node).  A node
without a left child is released and the loop continues with its right
child.  A node with a left child is not released yet: the C loop threads the
in-order predecessor's right pointer back to the current node and descends
left, which makes the current node and its right subtree reachable again
once the left subtree is exhausted; on pure trees that rewiring is the
re-rooting below, which likewise processes the left subtree first and
reattaches the current node after the left subtree's spine. -/
def morris_clear : AvlNode → List (Int × Int)
  | nil => []
  | node nil r k v _ => (k, v) :: morris_clear r
  | node (node ll lr lk lv lb) r k v b =>
      morris_clear (node ll (node lr r k v b) lk lv lb)
  termination_by t => sizeA t + left_weight t
  decreasing_by all_goals (simp only [sizeA, left_weight]; omega)

end AvlNode

/-- The `AvlMap` struct: the root pointer and the element count (the
comparator and deleter capabilities are instantiated with the total order on
`Int` and with event recording, respectively). -/
structure AvlMap where
  root : AvlNode
  len : Nat
  deriving DecidableEq, Repr

namespace AvlMap

open AvlNode

/-- `AvlMap_init`: empty root, zero count. -/
def AvlMap_init : AvlMap := ⟨.nil, 0⟩

/-- The descent loop of `AvlMap_insert`.  `self->compare(key, current->key)`
zero replaces the stored value and returns the previous one; negative
descends left, positive right; an empty child slot receives the node built
by `alloc_node` (whose `calloc` zeroes both child links and the balance
byte).  The result pairs the returned previous value with the tree after the
call.  `++self->len` executes exactly at the two attach sites, i.e. exactly
when no previous value is returned. -/
def insert_descend : AvlNode → Int → Int → Option Int × AvlNode
  | .nil, nk, nv => (none, .node .nil .nil nk nv 0)
  | .node l r k v b, nk, nv =>
      if nk = k then (some v, .node l r k nv b)
      else if nk < k then
        let (prev, lA) := insert_descend l nk nv
        (prev, .node lA r k v b)
      else
        let (prev, rA) := insert_descend r nk nv
        (prev, .node l rA k v b)

/-- `AvlMap_insert`: an empty map receives the new node as root; otherwise
the descent loop runs.  The last component lists the deleter invocations the
call performs: the C function contains no call to `self->deleter`, so it is
empty on every path.  No rebalancing code exists at this layer. -/
def AvlMap_insert (m : AvlMap) (nk nv : Int) :
    Option Int × AvlMap × List (Int × Int) :=
  match m.root with
  | .nil => (none, ⟨.node .nil .nil nk nv 0, m.len + 1⟩, [])
  | .node .. =>
      let (prev, rootA) := insert_descend m.root nk nv
      (prev, ⟨rootA, if prev.isNone then m.len + 1 else m.len⟩, [])

/-- `AvlMap_clear`: an empty map returns immediately; otherwise the Morris
loop releases every node and `self->len = 0` executes.  The function never
writes `self->root`, so the model keeps the old root value — after the call
it designates storage that has been freed.  The second component lists the
deleter invocations performed, in order. -/
def AvlMap_clear (m : AvlMap) : AvlMap × List (Int × Int) :=
  match m.root with
  | .nil => (m, [])
  | .node .. => (⟨m.root, 0⟩, morris_clear m.root)

/-- `AvlMap_destroy` just forwards to `AvlMap_clear`. -/
def AvlMap_destroy (m : AvlMap) : AvlMap × List (Int × Int) :=
  AvlMap_clear m

/-- Repeated map-layer insertion, with each key used as its own value. -/
def insertKeys (m : AvlMap) (ks : List Int) : AvlMap :=
  ks.foldl (fun m k => (AvlMap_insert m k k).2.1) m

end AvlMap

namespace TreeNode

/-- Repeated node-layer insertion, with each key used as its own value. -/
def insertTreeKeys (t : TreeNode) (ks : List Int) : TreeNode :=
  ks.foldl (fun t k => (TreeNode_insert t k k).2) t

/-- The spec's lower-bound scenario tree, holding the keys
`{1, 3, 5, 7, 9}` (each key doubling as its value). -/
def lbScenario : TreeNode :=
  node (node (node nil 1 1 1 nil) 3 3 2 nil) 5 5 3
    (node (node nil 7 7 1 nil) 9 9 2 nil)

end TreeNode

/-! ## Theorems -/

namespace TreeNode

theorem Avl_node {l r : TreeNode} {k v : Int} {h : Nat} :
    Avl (node l k v h r) ↔
      Avl l ∧ Avl r ∧ h = max (heightOf l) (heightOf r) + 1 ∧
        heightOf l ≤ heightOf r + 1 ∧ heightOf r ≤ heightOf l + 1 :=
  Iff.rfl

theorem inorderKeys_node (l : TreeNode) (k v : Int) (h : Nat)
    (r : TreeNode) :
    inorderKeys (node l k v h r) = inorderKeys l ++ k :: inorderKeys r := by
  simp [inorderKeys, inorderPairs]

theorem sorted_node {l r : TreeNode} {k v : Int} {h : Nat}
    (hs : Sorted (node l k v h r)) :
    Sorted l ∧ Sorted r ∧ (∀ x ∈ inorderKeys l, x < k) ∧
      ∀ x ∈ inorderKeys r, k < x := by
  unfold Sorted at hs ⊢
  rw [inorderKeys_node, List.pairwise_append] at hs
  obtain ⟨h1, h2, h3⟩ := hs
  rw [List.pairwise_cons] at h2
  exact ⟨h1, h2.2, fun x hx => h3 x hx k (by simp), h2.1⟩

/-- C8: on a tree whose in-order keys are strictly ascending, inserting a
node whose key is already stored makes `TreeNode_insert` fail with
`TREE_DUPLICATE_KEY` and leave the tree — links, heights, keys and values —
completely unchanged. -/
theorem insert_duplicate_key_rejected (t : TreeNode) (nk nv : Int)
    (hs : Sorted t) (hk : nk ∈ inorderKeys t) :
    TreeNode_insert t nk nv = (.duplicateKey, t) := by
  induction t with
  | nil => simp [inorderKeys, inorderPairs] at hk
  | node l k v h r ihl ihr =>
    obtain ⟨hsl, hsr, hlk, hrk⟩ := sorted_node hs
    rw [inorderKeys_node] at hk
    simp only [List.mem_append, List.mem_cons] at hk
    by_cases hek : k = nk
    · simp [TreeNode_insert, hek]
    · rcases hk with hk | hk | hk
      · have hlt : nk < k := hlk _ hk
        simp only [TreeNode_insert, if_neg hek, if_pos hlt, ihl hsl hk]
      · exact absurd hk.symm hek
      · have hgt : k < nk := hrk _ hk
        simp only [TreeNode_insert, if_neg hek, if_neg (by omega : ¬nk < k),
          ihr hsr hk]

/-- Witness for C8 at the sorted tree `{1, 2, 3}` and the duplicate key 3. -/
theorem insert_duplicate_key_rejected_witness :
    Sorted (node (node nil 1 1 1 nil) 2 2 2 (node nil 3 3 1 nil)) ∧
    3 ∈ inorderKeys (node (node nil 1 1 1 nil) 2 2 2 (node nil 3 3 1 nil)) ∧
    TreeNode_insert (node (node nil 1 1 1 nil) 2 2 2 (node nil 3 3 1 nil))
        3 99 =
      (.duplicateKey,
        node (node nil 1 1 1 nil) 2 2 2 (node nil 3 3 1 nil)) :=
  ⟨by decide, by decide,
    insert_duplicate_key_rejected _ 3 99 (by decide) (by decide)⟩

/-- C1: `TreeNode_erase` on a node with two children does not copy the
in-order successor's content into the node: erasing the root of the tree
with keys `{1, 2, 3}` (values `10·key`) leaves the root's pair `(2, 20)` in
the tree and instead removes the successor's pair `(3, 30)`, so afterwards
the in-order keys are `[1, 2]` rather than the `[1, 3]` the claim requires. -/
theorem erase_two_children_drops_successor :
    TreeNode_erase
        (node (node nil 1 10 1 nil) 2 20 2 (node nil 3 30 1 nil)) [] =
      some (node (node nil 1 10 1 nil) 2 20 2 nil) ∧
    inorderKeys (node (node nil 1 10 1 nil) 2 20 2 nil) = [1, 2] := by
  constructor <;> rfl

/-- C2: `TreeNode_erase` performs no rebalancing: erasing the leaf `1` from
the AVL tree with keys `{1, 2, 3, 4}` (shape `2(1, 3(_, 4))`) leaves the
root with subtree heights 0 and 2, violating the balance invariant the
claim says is re-established. -/
theorem erase_leaves_tree_unbalanced :
    Avl (node (node nil 1 11 1 nil) 2 22 3
          (node nil 3 33 2 (node nil 4 44 1 nil))) ∧
    TreeNode_erase
        (node (node nil 1 11 1 nil) 2 22 3
          (node nil 3 33 2 (node nil 4 44 1 nil))) [.l] =
      some (node nil 2 22 3 (node nil 3 33 2 (node nil 4 44 1 nil))) ∧
    ¬ Avl (node nil 2 22 3 (node nil 3 33 2 (node nil 4 44 1 nil))) := by
  refine ⟨by decide, rfl, by decide⟩

theorem key_mem_of_pair_mem {t : TreeNode} {p : Int × Int}
    (h : p ∈ inorderPairs t) : p.1 ∈ inorderKeys t :=
  List.mem_map_of_mem Prod.fst h

theorem lower_bound_node (l : TreeNode) (k v : Int) (h : Nat)
    (r : TreeNode) (q : Int) :
    TreeNode_lower_bound (node l k v h r) q =
      if k < q then TreeNode_lower_bound r q
      else if q < k then
        match TreeNode_lower_bound l q with
        | some b => some b
        | none => some (k, v)
      else some (k, v) := by
  cases l <;> rfl

theorem lower_bound_spec (t : TreeNode) (q : Int) (hs : Sorted t) :
    (∀ bk bv, TreeNode_lower_bound t q = some (bk, bv) →
        (bk, bv) ∈ inorderPairs t ∧ q ≤ bk ∧
          ∀ x ∈ inorderKeys t, q ≤ x → bk ≤ x) ∧
    (TreeNode_lower_bound t q = none ↔ ∀ x ∈ inorderKeys t, x < q) := by
  induction t with
  | nil =>
    exact ⟨fun _ _ h => Option.noConfusion h,
      by simp [TreeNode_lower_bound, inorderKeys, inorderPairs]⟩
  | node l k v h r ihl ihr =>
    obtain ⟨hsl, hsr, hlk, hrk⟩ := sorted_node hs
    rw [lower_bound_node]
    by_cases h1 : k < q
    · obtain ⟨ihr1, ihr2⟩ := ihr hsr
      rw [if_pos h1]
      constructor
      · intro bk bv hb
        obtain ⟨hmem, hge, hmin⟩ := ihr1 bk bv hb
        refine ⟨by simp [inorderPairs, hmem], hge, ?_⟩
        intro x hx hqx
        simp only [inorderKeys_node, List.mem_append, List.mem_cons] at hx
        rcases hx with hx | rfl | hx
        · have := hlk x hx; omega
        · omega
        · exact hmin x hx hqx
      · rw [ihr2, inorderKeys_node]
        constructor
        · intro hall x hx
          simp only [List.mem_append, List.mem_cons] at hx
          rcases hx with hx | rfl | hx
          · have := hlk x hx; omega
          · omega
          · exact hall x hx
        · intro hall x hx
          exact hall x (by simp [hx])
    · have hqk : q ≤ k := by omega
      rw [if_neg h1]
      by_cases h2 : q < k
      · obtain ⟨ihl1, ihl2⟩ := ihl hsl
        rw [if_pos h2]
        rcases hlb : TreeNode_lower_bound l q with _ | ⟨bk', bv'⟩
        · have hall_l := ihl2.mp hlb
          constructor
          · intro bk bv hb
            cases hb
            refine ⟨by simp [inorderPairs], hqk, ?_⟩
            intro x hx hqx
            simp only [inorderKeys_node, List.mem_append,
              List.mem_cons] at hx
            rcases hx with hx | rfl | hx
            · have := hall_l x hx; omega
            · omega
            · have := hrk x hx; omega
          · constructor
            · intro habs; cases habs
            · intro hall
              have := hall k (by rw [inorderKeys_node]; simp)
              omega
        · obtain ⟨hmem, hge, hmin⟩ := ihl1 bk' bv' hlb
          have hbkk : bk' < k := hlk _ (key_mem_of_pair_mem hmem)
          constructor
          · intro bk bv hb
            cases hb
            refine ⟨by simp [inorderPairs, hmem], hge, ?_⟩
            intro x hx hqx
            simp only [inorderKeys_node, List.mem_append,
              List.mem_cons] at hx
            rcases hx with hx | rfl | hx
            · exact hmin x hx hqx
            · omega
            · have := hrk x hx; omega
          · constructor
            · intro habs; cases habs
            · intro hall
              have := hall bk'
                (by rw [inorderKeys_node]
                    exact List.mem_append_left _
                      (key_mem_of_pair_mem hmem))
              omega
      · rw [if_neg h2]
        constructor
        · intro bk bv hb
          cases hb
          refine ⟨by simp [inorderPairs], hqk, ?_⟩
          intro x hx hqx
          simp only [inorderKeys_node, List.mem_append, List.mem_cons] at hx
          rcases hx with hx | rfl | hx
          · have := hlk x hx; omega
          · omega
          · have := hrk x hx; omega
        · constructor
          · intro habs; cases habs
          · intro hall
            have := hall k (by rw [inorderKeys_node]; simp)
            omega

/-- C6: on every non-empty tree whose in-order key sequence is strictly
ascending under the comparator, `TreeNode_lower_bound q` returns a stored
pair whose key is the smallest stored key `≥ q`, and it fails with
`TREE_NO_SUCH_KEY` if and only if every stored key is `< q`. -/
theorem lower_bound_correct (t : TreeNode) (q : Int)
    (hs : Sorted t) (_hne : t ≠ nil) :
    (∀ bk bv, TreeNode_lower_bound t q = some (bk, bv) →
        (bk, bv) ∈ inorderPairs t ∧ q ≤ bk ∧
          ∀ x ∈ inorderKeys t, q ≤ x → bk ≤ x) ∧
    (TreeNode_lower_bound t q = none ↔ ∀ x ∈ inorderKeys t, x < q) :=
  lower_bound_spec t q hs

/-- Witness for C6: the spec's scenario tree with keys `{1, 3, 5, 7, 9}`
queried at 6 (where the bound is the node holding 7). -/
theorem lower_bound_correct_witness :
    Sorted lbScenario ∧ lbScenario ≠ nil ∧
    TreeNode_lower_bound lbScenario 6 = some (7, 7) ∧
    ((7 : Int), (7 : Int)) ∈ inorderPairs lbScenario ∧
    (6 : Int) ≤ 7 :=
  ⟨by decide, by decide, by decide,
    ((lower_bound_correct lbScenario 6 (by decide) (by decide)).1 7 7
      (by decide)).1,
    ((lower_bound_correct lbScenario 6 (by decide) (by decide)).1 7 7
      (by decide)).2.1⟩

/-- C10: `TreeNode_lower_bound` is read-only — the tree as it stands after
the call is exactly the tree passed in, on every input and whether the
search succeeds or fails. -/
theorem lower_bound_readonly (t : TreeNode) (key : Int) :
    (TreeNode_lower_bound_st t key).2 = t := by
  induction t with
  | nil => rfl
  | node l k v h r ihl ihr =>
    simp only [TreeNode_lower_bound_st]
    split_ifs with h1 h2
    · rcases hr : TreeNode_lower_bound_st r key with ⟨b, rA⟩
      rw [hr] at ihr
      simp only [Prod.snd] at ihr
      simp [hr, ihr]
    · match l, ihl with
      | nil, _ => rfl
      | node ll lk lv lh lr, ihl =>
        rcases hl : TreeNode_lower_bound_st (node ll lk lv lh lr) key
          with ⟨b, lA⟩
        rw [hl] at ihl
        simp only [Prod.snd] at ihl
        rcases b with _ | b <;> simp [hl, ihl]
    · rfl

theorem get_height_eq {t : TreeNode} (h : Avl t) :
    get_height t = heightOf t := by
  cases t with
  | nil => rfl
  | node l k v hh r =>
    simpa [get_height, heightOf] using (Avl_node.mp h).2.2.1

theorem updated_height_eq (l r : TreeNode) :
    updated_height l r = max (get_height l) (get_height r) + 1 := by
  unfold updated_height
  rcases Nat.lt_or_ge (get_height r) (get_height l) with hlt | hge
  · rw [if_pos hlt, Nat.max_eq_left (Nat.le_of_lt hlt)]
  · rw [if_neg (by omega), Nat.max_eq_right hge]

/-- Joining two AVL subtrees whose heights differ by at most one under the
height `update_height` computes yields an AVL tree. -/
theorem avl_join (l r : TreeNode) (k v : Int) (hal : Avl l) (har : Avl r)
    (hb1 : heightOf l ≤ heightOf r + 1) (hb2 : heightOf r ≤ heightOf l + 1) :
    Avl (node l k v (updated_height l r) r) := by
  rw [Avl_node]
  refine ⟨hal, har, ?_, hb1, hb2⟩
  rw [updated_height_eq, get_height_eq hal, get_height_eq har]

theorem rotate_right_node (ll : TreeNode) (lk lv : Int) (lh : Nat)
    (lr : TreeNode) (k v : Int) (h : Nat) (r : TreeNode) :
    rotate_right (node (node ll lk lv lh lr) k v h r) =
      node ll lk lv
        (updated_height ll (node lr k v (updated_height lr r) r))
        (node lr k v (updated_height lr r) r) := rfl

theorem rotate_left_node (l : TreeNode) (k v : Int) (h : Nat)
    (rl : TreeNode) (rk rv : Int) (rh : Nat) (rr : TreeNode) :
    rotate_left (node l k v h (node rl rk rv rh rr)) =
      node (node l k v (updated_height l rl) rl) rk rv
        (updated_height (node l k v (updated_height l rl) rl) rr) rr := rfl

theorem rebalance_node_noop (l r : TreeNode) (k v : Int) (h : Nat)
    (h1 : get_height l ≤ get_height r + 1)
    (h2 : get_height r ≤ get_height l + 1) :
    rebalance_node (node l k v h r) = node l k v h r := by
  simp only [rebalance_node]
  rw [if_neg (by omega), if_neg (by omega)]

/-- Rebalancing a node whose left subtree has become exactly two levels
taller than its right subtree restores the AVL invariant; the height of the
rebalanced subtree lands within one of the pre-insertion height
`heightOf r + 2`. -/
theorem rebalance_left_heavy {l r : TreeNode} (k v : Int) (h : Nat)
    (hal : Avl l) (har : Avl r) (hd : heightOf l = heightOf r + 2) :
    Avl (rebalance_node (node l k v h r)) ∧
      heightOf r + 2 ≤ heightOf (rebalance_node (node l k v h r)) ∧
      heightOf (rebalance_node (node l k v h r)) ≤ heightOf r + 3 := by
  cases l with
  | nil => simp [heightOf] at hd
  | node ll lk lv lh lr =>
    obtain ⟨hall, halr, hlh, hb1, hb2⟩ := Avl_node.mp hal
    have hgll : get_height ll = heightOf ll := get_height_eq hall
    have hglr : get_height lr = heightOf lr := get_height_eq halr
    have hgr : get_height r = heightOf r := get_height_eq har
    have hgl : get_height (node ll lk lv lh lr) =
        heightOf (node ll lk lv lh lr) := get_height_eq hal
    have hmax : max (heightOf ll) (heightOf lr) + 1 = heightOf r + 2 := by
      simpa [heightOf] using hd
    simp only [rebalance_node]
    rw [if_pos (by rw [hgl, hgr]; omega)]
    have hbfe : balance_factor (node ll lk lv lh lr) =
        (heightOf ll : Int) - heightOf lr := by
      simp [balance_factor, hgll, hglr]
    by_cases hbf : balance_factor (node ll lk lv lh lr) < 0
    · have hlrgt : heightOf ll < heightOf lr := by rw [hbfe] at hbf; omega
      have hlr1 : heightOf lr = heightOf r + 1 := by omega
      have hll1 : heightOf ll = heightOf r := by omega
      cases lr with
      | nil => simp [heightOf] at hlr1
      | node a ak av ah b =>
        obtain ⟨haa, hab, hah, hab1, hab2⟩ := Avl_node.mp halr
        have hmax2 : max (heightOf a) (heightOf b) + 1 = heightOf r + 1 := by
          simpa [heightOf] using hlr1
        rw [if_pos hbf, rotate_left_node, rotate_right_node]
        have hA : heightOf (node ll lk lv (updated_height ll a) a) =
            max (heightOf ll) (heightOf a) + 1 := rfl
        have hD : heightOf (node b k v (updated_height b r) r) =
            max (heightOf b) (heightOf r) + 1 := rfl
        have havA : Avl (node ll lk lv (updated_height ll a) a) :=
          avl_join ll a lk lv hall haa (by omega) (by omega)
        have havD : Avl (node b k v (updated_height b r) r) :=
          avl_join b r k v hab har (by omega) (by omega)
        refine ⟨avl_join _ _ ak av havA havD (by omega) (by omega),
          ?_, ?_⟩ <;>
          simp only [heightOf] <;> omega
    · have hlrle : heightOf lr ≤ heightOf ll := by rw [hbfe] at hbf; omega
      have hll1 : heightOf ll = heightOf r + 1 := by omega
      rw [if_neg hbf, rotate_right_node]
      have hD : heightOf (node lr k v (updated_height lr r) r) =
          max (heightOf lr) (heightOf r) + 1 := rfl
      have havD : Avl (node lr k v (updated_height lr r) r) :=
        avl_join lr r k v halr har (by omega) (by omega)
      refine ⟨avl_join _ _ lk lv hall havD (by omega) (by omega),
        ?_, ?_⟩ <;>
        simp only [heightOf] <;> omega

theorem insert_left_eq (l : TreeNode) (k v : Int) (h : Nat) (r : TreeNode)
    (nk nv : Int) (hek : ¬k = nk) (hlt : nk < k) (e : TreeErrorE)
    (lA : TreeNode) (he : TreeNode_insert l nk nv = (e, lA)) :
    TreeNode_insert (node l k v h r) nk nv =
      if e = .success
      then (.success, rebalance_node (node lA k v (updated_height lA r) r))
      else (e, node lA k v h r) := by
  simp only [TreeNode_insert, if_neg hek, if_pos hlt, he]
  cases e <;> simp

theorem insert_right_eq (l : TreeNode) (k v : Int) (h : Nat) (r : TreeNode)
    (nk nv : Int) (hek : ¬k = nk) (hge : ¬nk < k) (e : TreeErrorE)
    (rA : TreeNode) (he : TreeNode_insert r nk nv = (e, rA)) :
    TreeNode_insert (node l k v h r) nk nv =
      if e = .success
      then (.success, rebalance_node (node l k v (updated_height l rA) rA))
      else (e, node l k v h rA) := by
  simp only [TreeNode_insert, if_neg hek, if_neg hge, he]
  cases e <;> simp

/-- Mirror of `rebalance_left_heavy` for a right subtree two levels taller
than the left. -/
theorem rebalance_right_heavy {l r : TreeNode} (k v : Int) (h : Nat)
    (hal : Avl l) (har : Avl r) (hd : heightOf r = heightOf l + 2) :
    Avl (rebalance_node (node l k v h r)) ∧
      heightOf l + 2 ≤ heightOf (rebalance_node (node l k v h r)) ∧
      heightOf (rebalance_node (node l k v h r)) ≤ heightOf l + 3 := by
  cases r with
  | nil => simp [heightOf] at hd
  | node rl rk rv rh rr =>
    obtain ⟨harl, harr, hrh, hb1, hb2⟩ := Avl_node.mp har
    have hgrl : get_height rl = heightOf rl := get_height_eq harl
    have hgrr : get_height rr = heightOf rr := get_height_eq harr
    have hgl : get_height l = heightOf l := get_height_eq hal
    have hgr : get_height (node rl rk rv rh rr) =
        heightOf (node rl rk rv rh rr) := get_height_eq har
    have hmax : max (heightOf rl) (heightOf rr) + 1 = heightOf l + 2 := by
      simpa [heightOf] using hd
    simp only [rebalance_node]
    rw [if_neg (by rw [hgl, hgr]; omega),
      if_pos (by rw [hgl, hgr]; omega)]
    have hbfe : balance_factor (node rl rk rv rh rr) =
        (heightOf rl : Int) - heightOf rr := by
      simp [balance_factor, hgrl, hgrr]
    by_cases hbf : balance_factor (node rl rk rv rh rr) > 0
    · have hrlgt : heightOf rr < heightOf rl := by rw [hbfe] at hbf; omega
      have hrl1 : heightOf rl = heightOf l + 1 := by omega
      have hrr1 : heightOf rr = heightOf l := by omega
      cases rl with
      | nil => simp [heightOf] at hrl1
      | node a ak av ah b =>
        obtain ⟨haa, hab, hah, hab1, hab2⟩ := Avl_node.mp harl
        have hmax2 : max (heightOf a) (heightOf b) + 1 = heightOf l + 1 := by
          simpa [heightOf] using hrl1
        rw [if_pos hbf, rotate_right_node, rotate_left_node]
        have hA : heightOf (node l k v (updated_height l a) a) =
            max (heightOf l) (heightOf a) + 1 := rfl
        have hD : heightOf (node b rk rv (updated_height b rr) rr) =
            max (heightOf b) (heightOf rr) + 1 := rfl
        have havA : Avl (node l k v (updated_height l a) a) :=
          avl_join l a k v hal haa (by omega) (by omega)
        have havD : Avl (node b rk rv (updated_height b rr) rr) :=
          avl_join b rr rk rv hab harr (by omega) (by omega)
        refine ⟨avl_join _ _ ak av havA havD (by omega) (by omega),
          ?_, ?_⟩ <;>
          simp only [heightOf] <;> omega
    · have hrlle : heightOf rl ≤ heightOf rr := by rw [hbfe] at hbf; omega
      have hrr1 : heightOf rr = heightOf l + 1 := by omega
      rw [if_neg hbf, rotate_left_node]
      have hD : heightOf (node l k v (updated_height l rl) rl) =
          max (heightOf l) (heightOf rl) + 1 := rfl
      have havD : Avl (node l k v (updated_height l rl) rl) :=
        avl_join l rl k v hal harl (by omega) (by omega)
      refine ⟨avl_join _ _ rk rv havD harr (by omega) (by omega),
        ?_, ?_⟩ <;>
        simp only [heightOf] <;> omega

/-- The inductive core for C7: on an AVL tree, `TreeNode_insert` preserves
the invariant, grows the height by at most one, and leaves the tree
untouched when it fails. -/
theorem insert_avl_aux (nk nv : Int) (t : TreeNode) (ha : Avl t) :
    Avl (TreeNode_insert t nk nv).2 ∧
      heightOf t ≤ heightOf (TreeNode_insert t nk nv).2 ∧
      heightOf (TreeNode_insert t nk nv).2 ≤ heightOf t + 1 ∧
      ((TreeNode_insert t nk nv).1 ≠ .success →
        (TreeNode_insert t nk nv).2 = t) := by
  induction t with
  | nil =>
    exact ⟨Avl_node.mpr ⟨trivial, trivial, rfl, by omega, by omega⟩,
      by simp [heightOf], by simp [heightOf], fun hcon => absurd rfl hcon⟩
  | node l k v h r ihl ihr =>
    obtain ⟨hal, har, hch, hb1, hb2⟩ := Avl_node.mp ha
    by_cases hek : k = nk
    · have hres : TreeNode_insert (node l k v h r) nk nv =
          (.duplicateKey, node l k v h r) := by
        simp only [TreeNode_insert, if_pos hek]
      rw [hres]
      exact ⟨ha, Nat.le_refl _, Nat.le_succ _, fun _ => rfl⟩
    · by_cases hlt : nk < k
      · obtain ⟨iha, ihh1, ihh2, ihe⟩ := ihl hal
        rcases he : TreeNode_insert l nk nv with ⟨e, lA⟩
        rw [he] at iha ihh1 ihh2 ihe
        rw [insert_left_eq l k v h r nk nv hek hlt e lA he]
        cases e with
        | success =>
          rw [if_pos rfl]
          have iha' : Avl lA := iha
          have ihh1' : heightOf l ≤ heightOf lA := ihh1
          have ihh2' : heightOf lA ≤ heightOf l + 1 := ihh2
          by_cases hcase : heightOf lA ≤ heightOf r + 1
          · rw [show rebalance_node (node lA k v (updated_height lA r) r) =
                node lA k v (updated_height lA r) r from
              rebalance_node_noop lA r k v _
                (by rw [get_height_eq iha', get_height_eq har]; omega)
                (by rw [get_height_eq iha', get_height_eq har]; omega)]
            refine ⟨avl_join lA r k v iha' har hcase (by omega),
              ?_, ?_, fun hcon => absurd rfl hcon⟩
            · show max (heightOf l) (heightOf r) + 1 ≤
                max (heightOf lA) (heightOf r) + 1
              omega
            · show max (heightOf lA) (heightOf r) + 1 ≤
                max (heightOf l) (heightOf r) + 1 + 1
              omega
          · have hd2 : heightOf lA = heightOf r + 2 := by omega
            obtain ⟨havl, hlo, hhi⟩ :=
              rebalance_left_heavy k v (updated_height lA r) iha' har hd2
            refine ⟨havl, ?_, ?_, fun hcon => absurd rfl hcon⟩
            · show max (heightOf l) (heightOf r) + 1 ≤
                heightOf (rebalance_node (node lA k v (updated_height lA r) r))
              omega
            · show heightOf
                  (rebalance_node (node lA k v (updated_height lA r) r)) ≤
                max (heightOf l) (heightOf r) + 1 + 1
              omega
        | duplicateKey =>
          rw [if_neg (by decide)]
          have hlA : lA = l := ihe fun hcon => TreeErrorE.noConfusion hcon
          subst hlA
          exact ⟨ha, Nat.le_refl _, Nat.le_succ _, fun _ => rfl⟩
        | noSuchKey =>
          rw [if_neg (by decide)]
          have hlA : lA = l := ihe fun hcon => TreeErrorE.noConfusion hcon
          subst hlA
          exact ⟨ha, Nat.le_refl _, Nat.le_succ _, fun _ => rfl⟩
      · obtain ⟨iha, ihh1, ihh2, ihe⟩ := ihr har
        rcases he : TreeNode_insert r nk nv with ⟨e, rA⟩
        rw [he] at iha ihh1 ihh2 ihe
        rw [insert_right_eq l k v h r nk nv hek hlt e rA he]
        cases e with
        | success =>
          rw [if_pos rfl]
          have iha' : Avl rA := iha
          have ihh1' : heightOf r ≤ heightOf rA := ihh1
          have ihh2' : heightOf rA ≤ heightOf r + 1 := ihh2
          by_cases hcase : heightOf rA ≤ heightOf l + 1
          · rw [show rebalance_node (node l k v (updated_height l rA) rA) =
                node l k v (updated_height l rA) rA from
              rebalance_node_noop l rA k v _
                (by rw [get_height_eq hal, get_height_eq iha']; omega)
                (by rw [get_height_eq hal, get_height_eq iha']; omega)]
            refine ⟨avl_join l rA k v hal iha' (by omega) hcase,
              ?_, ?_, fun hcon => absurd rfl hcon⟩
            · show max (heightOf l) (heightOf r) + 1 ≤
                max (heightOf l) (heightOf rA) + 1
              omega
            · show max (heightOf l) (heightOf rA) + 1 ≤
                max (heightOf l) (heightOf r) + 1 + 1
              omega
          · have hd2 : heightOf rA = heightOf l + 2 := by omega
            obtain ⟨havl, hlo, hhi⟩ :=
              rebalance_right_heavy k v (updated_height l rA) hal iha' hd2
            refine ⟨havl, ?_, ?_, fun hcon => absurd rfl hcon⟩
            · show max (heightOf l) (heightOf r) + 1 ≤
                heightOf (rebalance_node (node l k v (updated_height l rA) rA))
              omega
            · show heightOf
                  (rebalance_node (node l k v (updated_height l rA) rA)) ≤
                max (heightOf l) (heightOf r) + 1 + 1
              omega
        | duplicateKey =>
          rw [if_neg (by decide)]
          have hrA : rA = r := ihe fun hcon => TreeErrorE.noConfusion hcon
          subst hrA
          exact ⟨ha, Nat.le_refl _, Nat.le_succ _, fun _ => rfl⟩
        | noSuchKey =>
          rw [if_neg (by decide)]
          have hrA : rA = r := ihe fun hcon => TreeErrorE.noConfusion hcon
          subst hrA
          exact ⟨ha, Nat.le_refl _, Nat.le_succ _, fun _ => rfl⟩

theorem insert_success_of_not_mem (t : TreeNode) (nk nv : Int)
    (hmem : nk ∉ inorderKeys t) :
    (TreeNode_insert t nk nv).1 = .success := by
  induction t with
  | nil => rfl
  | node l k v h r ihl ihr =>
    rw [inorderKeys_node] at hmem
    simp only [List.mem_append, List.mem_cons, not_or] at hmem
    obtain ⟨hnl, hnk, hnr⟩ := hmem
    have hek : ¬k = nk := fun hh => hnk hh.symm
    by_cases hlt : nk < k
    · rcases he : TreeNode_insert l nk nv with ⟨e, lA⟩
      obtain rfl : e = .success := by
        have := ihl hnl; rw [he] at this; exact this
      rw [insert_left_eq l k v h r nk nv hek hlt _ _ he, if_pos rfl]
    · rcases he : TreeNode_insert r nk nv with ⟨e, rA⟩
      obtain rfl : e = .success := by
        have := ihr hnr; rw [he] at this; exact this
      rw [insert_right_eq l k v h r nk nv hek hlt _ _ he, if_pos rfl]

/-- C7: on a tree satisfying the AVL balance and height-cache invariants,
inserting a key that is not already stored succeeds, and the resulting tree
again satisfies, at every node, `|height(left) - height(right)| <= 1` and
`height == 1 + max(height(left), height(right))`. -/
theorem insert_preserves_avl (t : TreeNode) (nk nv : Int)
    (h1 : Avl t) (h2 : nk ∉ inorderKeys t) :
    (TreeNode_insert t nk nv).1 = .success ∧
      Avl (TreeNode_insert t nk nv).2 :=
  ⟨insert_success_of_not_mem t nk nv h2, (insert_avl_aux nk nv t h1).1⟩

/-- Witness for C7: inserting key 4 into the AVL tree `{1, 2, 3}`. -/
theorem insert_preserves_avl_witness :
    Avl (node (node nil 1 1 1 nil) 2 2 2 (node nil 3 3 1 nil)) ∧
    (4 : Int) ∉
      inorderKeys (node (node nil 1 1 1 nil) 2 2 2 (node nil 3 3 1 nil)) ∧
    (TreeNode_insert (node (node nil 1 1 1 nil) 2 2 2 (node nil 3 3 1 nil))
        4 4).1 = .success ∧
    Avl (TreeNode_insert
        (node (node nil 1 1 1 nil) 2 2 2 (node nil 3 3 1 nil)) 4 4).2 :=
  ⟨by decide, by decide,
    (insert_preserves_avl (node (node nil 1 1 1 nil) 2 2 2
        (node nil 3 3 1 nil)) 4 4 (by decide) (by decide)).1,
    (insert_preserves_avl (node (node nil 1 1 1 nil) 2 2 2
        (node nil 3 3 1 nil)) 4 4 (by decide) (by decide)).2⟩

end TreeNode

namespace AvlMap

open AvlNode

theorem inorderKeysA_node (l r : AvlNode) (k v b : Int) :
    inorderKeysA (.node l r k v b) =
      inorderKeysA l ++ k :: inorderKeysA r := by
  simp [inorderKeysA, inorderPairsA]

theorem sortedA_node {l r : AvlNode} {k v b : Int}
    (hs : SortedA (.node l r k v b)) :
    SortedA l ∧ SortedA r ∧ (∀ x ∈ inorderKeysA l, x < k) ∧
      ∀ x ∈ inorderKeysA r, k < x := by
  unfold SortedA at hs ⊢
  rw [inorderKeysA_node, List.pairwise_append] at hs
  obtain ⟨h1, h2, h3⟩ := hs
  rw [List.pairwise_cons] at h2
  exact ⟨h1, h2.2, fun x hx => h3 x hx k (by simp), h2.1⟩

theorem keyA_mem_of_pair_mem {t : AvlNode} {p : Int × Int}
    (h : p ∈ inorderPairsA t) : p.1 ∈ inorderKeysA t :=
  List.mem_map_of_mem Prod.fst h

theorem map_replace_keep (L : List (Int × Int)) (nk nv : Int)
    (h : ∀ p ∈ L, p.1 ≠ nk) :
    L.map (fun p => if p.1 = nk then (nk, nv) else p) = L := by
  induction L with
  | nil => rfl
  | cons p L ih =>
    simp only [List.map_cons, if_neg (h p (by simp)),
      ih fun q hq => h q (by simp [hq])]

theorem insert_descend_found (t : AvlNode) (nk nv v₀ : Int)
    (hs : SortedA t) (hk : (nk, v₀) ∈ inorderPairsA t) :
    (insert_descend t nk nv).1 = some v₀ ∧
    inorderPairsA (insert_descend t nk nv).2 =
      (inorderPairsA t).map fun p => if p.1 = nk then (nk, nv) else p := by
  induction t with
  | nil => simp [inorderPairsA] at hk
  | node l r k v b ihl ihr =>
    obtain ⟨hsl, hsr, hlk, hrk⟩ := sortedA_node hs
    simp only [inorderPairsA, List.mem_append, List.mem_cons] at hk
    by_cases hek : nk = k
    · subst hek
      obtain rfl : v₀ = v := by
        rcases hk with hk | hk | hk
        · have := hlk _ (keyA_mem_of_pair_mem hk); omega
        · exact congrArg Prod.snd hk
        · have := hrk _ (keyA_mem_of_pair_mem hk); omega
      have hkeepL := map_replace_keep (inorderPairsA l) nk nv
        fun p hp => by have := hlk _ (keyA_mem_of_pair_mem hp); omega
      have hkeepR := map_replace_keep (inorderPairsA r) nk nv
        fun p hp => by have := hrk _ (keyA_mem_of_pair_mem hp); omega
      simp only [insert_descend, if_pos rfl]
      exact ⟨rfl, by simp [inorderPairsA, hkeepL, hkeepR]⟩
    · have hke : ¬k = nk := fun hh => hek hh.symm
      have hk' : (nk, v₀) ∈ inorderPairsA l ∨
          (nk, v₀) ∈ inorderPairsA r := by
        rcases hk with hk | hk | hk
        · exact Or.inl hk
        · exact absurd (congrArg Prod.fst hk) hek
        · exact Or.inr hk
      rcases hk' with hk' | hk'
      · have hlt : nk < k := hlk _ (keyA_mem_of_pair_mem hk')
        obtain ⟨ih1, ih2⟩ := ihl hsl hk'
        have hkeepR := map_replace_keep (inorderPairsA r) nk nv
          fun p hp => by have := hrk _ (keyA_mem_of_pair_mem hp); omega
        simp only [insert_descend, if_neg hek, if_pos hlt]
        rcases hd : insert_descend l nk nv with ⟨prev, lA⟩
        rw [hd] at ih1 ih2
        refine ⟨ih1, ?_⟩
        show inorderPairsA (.node lA r k v b) = _
        have ih2' : inorderPairsA lA = (inorderPairsA l).map
            fun p => if p.1 = nk then (nk, nv) else p := ih2
        simp [inorderPairsA, ih2', hkeepR, hke]
      · have hgt : k < nk := hrk _ (keyA_mem_of_pair_mem hk')
        obtain ⟨ih1, ih2⟩ := ihr hsr hk'
        have hkeepL := map_replace_keep (inorderPairsA l) nk nv
          fun p hp => by have := hlk _ (keyA_mem_of_pair_mem hp); omega
        simp only [insert_descend, if_neg hek,
          if_neg (by omega : ¬nk < k)]
        rcases hd : insert_descend r nk nv with ⟨prev, rA⟩
        rw [hd] at ih1 ih2
        refine ⟨ih1, ?_⟩
        show inorderPairsA (.node l rA k v b) = _
        have ih2' : inorderPairsA rA = (inorderPairsA r).map
            fun p => if p.1 = nk then (nk, nv) else p := ih2
        simp [inorderPairsA, ih2', hkeepL, hke]

/-- C9: on a map whose in-order keys are strictly ascending and which
already stores the pair `(nk, v₀)`, `AvlMap_insert nk nv` returns the
previously stored value `v₀`, replaces exactly that pair's value with `nv`,
and leaves the in-order key sequence and the element count unchanged. -/
theorem insert_existing_overwrites (m : AvlMap) (nk nv v₀ : Int)
    (hs : SortedA m.root) (hk : (nk, v₀) ∈ inorderPairsA m.root) :
    (AvlMap_insert m nk nv).1 = some v₀ ∧
    (AvlMap_insert m nk nv).2.1.len = m.len ∧
    inorderPairsA (AvlMap_insert m nk nv).2.1.root =
      ((inorderPairsA m.root).map
        fun p => if p.1 = nk then (nk, nv) else p) ∧
    inorderKeysA (AvlMap_insert m nk nv).2.1.root =
      inorderKeysA m.root := by
  rcases hroot : m.root with _ | ⟨l, r, k, v, b⟩
  · rw [hroot] at hk; simp [inorderPairsA] at hk
  · rw [hroot] at hs hk
    obtain ⟨h1, h2⟩ := insert_descend_found (.node l r k v b) nk nv v₀ hs hk
    simp only [AvlMap_insert, hroot]
    rcases hd : insert_descend (.node l r k v b) nk nv with ⟨prev, rootA⟩
    rw [hd] at h1 h2
    have h1' : prev = some v₀ := h1
    have h2' : inorderPairsA rootA = (inorderPairsA (.node l r k v b)).map
        fun p => if p.1 = nk then (nk, nv) else p := h2
    refine ⟨h1', by simp [h1'], h2', ?_⟩
    show inorderKeysA rootA = inorderKeysA (.node l r k v b)
    simp only [inorderKeysA, h2', List.map_map]
    congr 1
    funext p
    by_cases hp : p.1 = nk <;> simp [hp, Function.comp]

/-- Witness for C9 at the two-element map `{(1, 10), (2, 20)}`,
overwriting key 2. -/
theorem insert_existing_overwrites_witness :
    SortedA (.node (.node .nil .nil 1 10 0) .nil 2 20 0) ∧
    ((2 : Int), (20 : Int)) ∈
      inorderPairsA (.node (.node .nil .nil 1 10 0) .nil 2 20 0) ∧
    (AvlMap_insert ⟨.node (.node .nil .nil 1 10 0) .nil 2 20 0, 2⟩
        2 99).1 = some 20 ∧
    (AvlMap_insert ⟨.node (.node .nil .nil 1 10 0) .nil 2 20 0, 2⟩
        2 99).2.1.len = 2 :=
  ⟨by decide, by decide,
    (insert_existing_overwrites
      ⟨.node (.node .nil .nil 1 10 0) .nil 2 20 0, 2⟩ 2 99 20
      (by decide) (by decide)).1,
    (insert_existing_overwrites
      ⟨.node (.node .nil .nil 1 10 0) .nil 2 20 0, 2⟩ 2 99 20
      (by decide) (by decide)).2.1⟩

/-- C3: the map layer never rebalances: inserting the keys `1..7` in
ascending order into an empty map produces a right spine of height 7 (the
claim requires height 3), although the count is maintained correctly. -/
theorem insert_ascending_unbalanced :
    heightA (insertKeys AvlMap_init [1, 2, 3, 4, 5, 6, 7]).root = 7 ∧
    (insertKeys AvlMap_init [1, 2, 3, 4, 5, 6, 7]).len = 7 := by
  constructor <;> rfl

/-- C4: `AvlMap_clear` on the one-element map `{(1, 10)}` invokes the
deleter exactly once, on `(1, 10)`, and zeroes the count, but never resets
`root`: afterwards `root` still designates the freed node instead of the
empty state the claim requires. -/
theorem clear_does_not_reset_root :
    AvlMap_clear ⟨.node .nil .nil 1 10 0, 1⟩ =
      (⟨.node .nil .nil 1 10 0, 0⟩, [(1, 10)]) ∧
    (AvlMap_clear ⟨.node .nil .nil 1 10 0, 1⟩).1.root ≠ .nil := by
  constructor
  · simp [AvlMap_clear, morris_clear]
  · intro h
    simp [AvlMap_clear] at h

theorem morris_clear_eq_inorder (t : AvlNode) :
    morris_clear t = inorderPairsA t := by
  induction t using morris_clear.induct <;>
    simp [morris_clear, inorderPairsA, List.append_assoc, *]

/-- C5 (amended): the deleter discipline the code implements: a
duplicate-key insert performs no deleter invocation at all and instead
returns the previous value to the caller, while `AvlMap_clear` (and hence
`AvlMap_destroy`) invokes the deleter exactly once per stored pair — its
invocation list is exactly the in-order list of the stored pairs. -/
theorem deleter_discipline :
    (∀ (m : AvlMap) (nk nv v₀ : Int), SortedA m.root →
        (nk, v₀) ∈ inorderPairsA m.root →
          (AvlMap_insert m nk nv).1 = some v₀ ∧
            (AvlMap_insert m nk nv).2.2 = []) ∧
    ∀ m : AvlMap, (AvlMap_clear m).2 = inorderPairsA m.root := by
  constructor
  · intro m nk nv v₀ hs hk
    constructor
    · rcases hroot : m.root with _ | ⟨l, r, k, v, b⟩
      · rw [hroot] at hk; simp [inorderPairsA] at hk
      · rw [hroot] at hs hk
        obtain ⟨h1, -⟩ :=
          insert_descend_found (.node l r k v b) nk nv v₀ hs hk
        simp only [AvlMap_insert, hroot]
        rcases hd : insert_descend (.node l r k v b) nk nv with ⟨prev, rootA⟩
        rw [hd] at h1
        exact h1
    · rcases hroot : m.root with _ | ⟨l, r, k, v, b⟩
      · simp [AvlMap_insert, hroot]
      · rcases hd : insert_descend (.node l r k v b) nk nv with ⟨prev, rootA⟩
        simp [AvlMap_insert, hroot, hd]
  · intro m
    rcases hroot : m.root with _ | ⟨l, r, k, v, b⟩
    · simp [AvlMap_clear, hroot, inorderPairsA]
    · simp [AvlMap_clear, hroot, morris_clear_eq_inorder]

/-- Witness for the amended C5 at the one-element map `{(1, 10)}`:
overwriting returns 10 with no deleter call, and clear's deleter log is
exactly `[(1, 10)]`. -/
theorem deleter_discipline_witness :
    SortedA (AvlNode.node .nil .nil 1 10 0) ∧
    ((1 : Int), (10 : Int)) ∈ inorderPairsA (.node .nil .nil 1 10 0) ∧
    (AvlMap_insert ⟨.node .nil .nil 1 10 0, 1⟩ 1 99).1 = some 10 ∧
    (AvlMap_insert ⟨.node .nil .nil 1 10 0, 1⟩ 1 99).2.2 = [] ∧
    (AvlMap_clear ⟨.node .nil .nil 1 10 0, 1⟩).2 = [(1, 10)] :=
  ⟨by decide, by decide,
    (deleter_discipline.1 ⟨.node .nil .nil 1 10 0, 1⟩ 1 99 10
      (by decide) (by decide)).1,
    (deleter_discipline.1 ⟨.node .nil .nil 1 10 0, 1⟩ 1 99 10
      (by decide) (by decide)).2,
    deleter_discipline.2 ⟨.node .nil .nil 1 10 0, 1⟩⟩

/-- C5 (counterexample): inserting key `1` into the map that already stores
`(1, 10)` performs no deleter invocation at all — the call's deleter log is
empty, not a single invocation on the old value — and instead hands the old
value `10` back to the caller. -/
theorem insert_overwrite_no_deleter_call :
    (AvlMap_insert ⟨.node .nil .nil 1 10 0, 1⟩ 1 99).2.2 = [] ∧
    (AvlMap_insert ⟨.node .nil .nil 1 10 0, 1⟩ 1 99).1 = some 10 := by
  constructor <;> rfl

end AvlMap

end Bloodhound
